import Mathlib

/-!
Verification of the databento-dbn specification against the repository
sources.

The visible Python sources are the schema-version modules `v1.py` and
`v2.py`, which bind public record names to layouts exported by the native
module `_lib`, and the `MappingInterval` / `SymbolMapping` data model in
`__init__.py`.  Those parts are embedded directly from the source.  The
record decoder, the layout catalog and the symbol-mapping insert/lookup
operations live in the native core that is not part of the visible
sources; those are modelled from the specification text, as marked on
each definition.
-/

namespace Dbn

/-- Layout identifiers exported by the native module `_lib`, as imported by
`v1.py` and `v2.py`. -/
inductive Layout where
  | BBOMsg
  | CBBOMsg
  | CMBP1Msg
  | ErrorMsg
  | ErrorMsgV1
  | ImbalanceMsg
  | InstrumentDefMsgV1
  | InstrumentDefMsgV2
  | MBOMsg
  | MBP1Msg
  | MBP10Msg
  | OHLCVMsg
  | StatMsg
  | StatMsgV1
  | StatusMsg
  | SymbolMappingMsg
  | SymbolMappingMsgV1
  | SystemMsg
  | SystemMsgV1
  | TradeMsg
deriving DecidableEq, Repr

/-- Public bindings of the module `databento_dbn.v1`, in source order:
fifteen imported message names followed by the six alias assignments
(`v1.py`). -/
def v1_exports : List (String × Layout) :=
  [ ("BBOMsg", Layout.BBOMsg)
  , ("CBBOMsg", Layout.CBBOMsg)
  , ("CMBP1Msg", Layout.CMBP1Msg)
  , ("ErrorMsg", Layout.ErrorMsgV1)
  , ("ImbalanceMsg", Layout.ImbalanceMsg)
  , ("InstrumentDefMsg", Layout.InstrumentDefMsgV1)
  , ("MBOMsg", Layout.MBOMsg)
  , ("MBP1Msg", Layout.MBP1Msg)
  , ("MBP10Msg", Layout.MBP10Msg)
  , ("OHLCVMsg", Layout.OHLCVMsg)
  , ("StatMsg", Layout.StatMsg)
  , ("StatusMsg", Layout.StatusMsg)
  , ("SymbolMappingMsg", Layout.SymbolMappingMsgV1)
  , ("SystemMsg", Layout.SystemMsgV1)
  , ("TradeMsg", Layout.TradeMsg)
  , ("TBBOMsg", Layout.MBOMsg)
  , ("BBO1SMsg", Layout.BBOMsg)
  , ("BBO1MMsg", Layout.BBOMsg)
  , ("TCBBOMsg", Layout.CMBP1Msg)
  , ("CBBO1SMsg", Layout.CBBOMsg)
  , ("CBBO1MMsg", Layout.CBBOMsg)
  ]

/-- Public bindings of the module `databento_dbn.v2`, in source order:
fifteen imported message names followed by the six alias assignments
(`v2.py`). -/
def v2_exports : List (String × Layout) :=
  [ ("BBOMsg", Layout.BBOMsg)
  , ("CBBOMsg", Layout.CBBOMsg)
  , ("CMBP1Msg", Layout.CMBP1Msg)
  , ("ErrorMsg", Layout.ErrorMsg)
  , ("ImbalanceMsg", Layout.ImbalanceMsg)
  , ("InstrumentDefMsg", Layout.InstrumentDefMsgV2)
  , ("MBOMsg", Layout.MBOMsg)
  , ("MBP1Msg", Layout.MBP1Msg)
  , ("MBP10Msg", Layout.MBP10Msg)
  , ("OHLCVMsg", Layout.OHLCVMsg)
  , ("StatMsg", Layout.StatMsgV1)
  , ("StatusMsg", Layout.StatusMsg)
  , ("SymbolMappingMsg", Layout.SymbolMappingMsg)
  , ("SystemMsg", Layout.SystemMsg)
  , ("TradeMsg", Layout.TradeMsg)
  , ("TBBOMsg", Layout.MBP1Msg)
  , ("BBO1SMsg", Layout.BBOMsg)
  , ("BBO1MMsg", Layout.BBOMsg)
  , ("TCBBOMsg", Layout.CMBP1Msg)
  , ("CBBO1SMsg", Layout.CBBOMsg)
  , ("CBBO1MMsg", Layout.CBBOMsg)
  ]

/-- Resolution of a public name in a version module: the layout bound to
the name, or `none` when the module does not export the name.  Binding
names are unique within a module, so first match equals the Python
attribute binding. -/
def resolveName (exports : List (String × Layout)) (n : String) : Option Layout :=
  (exports.find? (fun e => e.1 == n)).map (fun e => e.2)

/-- Names of the six legacy alias assignments shared by `v1.py` and
`v2.py`. -/
def aliasNames : List String :=
  ["TBBOMsg", "BBO1SMsg", "BBO1MMsg", "TCBBOMsg", "CBBO1SMsg", "CBBO1MMsg"]

/-- Names of the fifteen imported message bindings shared by `v1.py` and
`v2.py`. -/
def messageNames : List String :=
  [ "BBOMsg", "CBBOMsg", "CMBP1Msg", "ErrorMsg", "ImbalanceMsg"
  , "InstrumentDefMsg", "MBOMsg", "MBP1Msg", "MBP10Msg", "OHLCVMsg"
  , "StatMsg", "StatusMsg", "SymbolMappingMsg", "SystemMsg", "TradeMsg" ]

/-- Names exported by a version module, in binding order. -/
def exportNames (exports : List (String × Layout)) : List String :=
  exports.map (fun e => e.1)

/-- Symbol mapping over a start and end date range interval, with the
fields declared by `MappingInterval` in `__init__.py`.  Dates are embedded
as natural numbers in `YYYYMMDD` form, which preserves the calendar
order. -/
structure MappingInterval where
  start_date : Nat
  end_date : Nat
  symbol : String
deriving DecidableEq, Repr

/-- Mappings for one native symbol, with the fields declared by
`SymbolMapping` in `__init__.py`. -/
structure SymbolMapping where
  raw_symbol : String
  intervals : List MappingInterval
deriving DecidableEq, Repr

/-- Errors of the symbol-mapping insertion contract (spec section 4.4). -/
inductive InsertError where
  | OverlappingInterval
  | OutOfOrder
deriving DecidableEq, Repr

/-- Covering test of one interval: `start_date <= as_of_date < end_date`
(spec section 4.4). -/
def covers (iv : MappingInterval) (d : Nat) : Bool :=
  iv.start_date ≤ d && d < iv.end_date

/-- Overlap test of two half-open date intervals (spec section 3: intervals
for the same raw symbol must not overlap). -/
def overlaps (a b : MappingInterval) : Bool :=
  a.start_date < b.end_date && b.start_date < a.end_date

/-- Well-formedness of one symbol's interval sequence (spec section 3):
sorted by `start_date` and pairwise non-overlapping. -/
def wellFormedIntervals : List MappingInterval → Bool
  | [] => true
  | iv :: ivs =>
    ivs.all (fun o => iv.start_date ≤ o.start_date && !overlaps iv o) &&
      wellFormedIntervals ivs

/-- Modelled from the spec: the search of `lookup` over one raw symbol's
ordered interval sequence (section 4.4), the missing native Symbol Mapping
Resolver.  Returns the symbol of the first interval whose range covers the
date, `none` for `NotMapped`. -/
def lookupIntervals : List MappingInterval → Nat → Option String
  | [], _ => none
  | iv :: ivs, d => if covers iv d then some iv.symbol else lookupIntervals ivs d

/-- Resolver state: the symbol mappings built so far, one per raw symbol. -/
abbrev Resolver := List SymbolMapping

/-- Mapping held by the resolver for a raw symbol, if any. -/
def findMapping (r : Resolver) (raw : String) : Option SymbolMapping :=
  r.find? (fun m => m.raw_symbol == raw)

/-- Modelled from the spec: `lookup(raw_symbol, as_of_date)` of the missing
native Symbol Mapping Resolver (section 4.4); `none` is `NotMapped`, both
for an uncovered date and for an unknown raw symbol. -/
def lookup (r : Resolver) (raw : String) (d : Nat) : Option String :=
  match findMapping r raw with
  | none => none
  | some m => lookupIntervals m.intervals d

/-- Modelled from the spec: insertion into one raw symbol's interval
sequence (section 4.4), the missing native Symbol Mapping Resolver.
Fails with `OverlappingInterval` if the new interval overlaps an existing
one, fails with `OutOfOrder` if the new `start_date` is below the most
recently inserted interval's `start_date`, and otherwise appends
(append-only growth); the two checks are made in the order the spec
states them. -/
def insertIntervals (ivs : List MappingInterval) (iv : MappingInterval) :
    Except InsertError (List MappingInterval) :=
  if ivs.any (fun o => overlaps o iv) then .error .OverlappingInterval
  else
    match ivs.getLast? with
    | none => .ok (ivs ++ [iv])
    | some lastIv =>
      if iv.start_date < lastIv.start_date then .error .OutOfOrder
      else .ok (ivs ++ [iv])

/-- Replacement of the interval sequence held for one raw symbol. -/
def setMapping : Resolver → String → List MappingInterval → Resolver
  | [], raw, ivs => [⟨raw, ivs⟩]
  | m :: ms, raw, ivs =>
    if m.raw_symbol == raw then ⟨raw, ivs⟩ :: ms else m :: setMapping ms raw ivs

/-- Modelled from the spec: `insert(raw_symbol, interval)` of the missing
native Symbol Mapping Resolver (section 4.4).  A raw symbol not seen
before starts a fresh one-interval mapping. -/
def insert (r : Resolver) (raw : String) (iv : MappingInterval) :
    Except InsertError Resolver :=
  match findMapping r raw with
  | none => .ok (r ++ [⟨raw, [iv]⟩])
  | some m => (insertIntervals m.intervals iv).map (fun ivs => setMapping r raw ivs)

/-- State-passing form of `insert`: on failure the error is reported and
the resolver state is returned as it was (spec section 7: insertion
rejected, prior state unchanged). -/
def insertS (r : Resolver) (raw : String) (iv : MappingInterval) :
    Resolver × Option InsertError :=
  match insert r raw iv with
  | .ok r2 => (r2, none)
  | .error e => (r, some e)

/-- Schema generations of the record layout catalog (spec glossary:
V1, V2, current/V3). -/
inductive SchemaVersion where
  | V1
  | V2
  | V3
deriving DecidableEq, BEq, Repr

/-- Field descriptor of a layout: name, fixed byte offset inside the
record, and byte width (spec section 4.1). -/
structure FieldDesc where
  fname : String
  offset : Nat
  width : Nat
deriving DecidableEq, Repr

/-- Layout descriptor: the record size in 4-byte units (the unit of the
header length field, spec section 6) and the ordered field list (spec
section 4.1). -/
structure LayoutDesc where
  sizeUnits : Nat
  fields : List FieldDesc
deriving DecidableEq, Repr

/-- Disjointness of the byte ranges of two fields. -/
def disjointFields (f g : FieldDesc) : Bool :=
  decide (f.offset + f.width ≤ g.offset) || decide (g.offset + g.width ≤ f.offset)

/-- Pairwise disjointness of a field list's byte ranges. -/
def pairwiseDisjoint : List FieldDesc → Bool
  | [] => true
  | f :: fs => fs.all (fun g => disjointFields f g) && pairwiseDisjoint fs

/-- Well-formedness of a layout: a non-zero size whose unit count fits the
one-byte header length field, every field behind the two header bytes and
inside the record, and pairwise disjoint fields. -/
def layoutWF (L : LayoutDesc) : Bool :=
  decide (0 < L.sizeUnits) && decide (L.sizeUnits < 256) &&
    L.fields.all (fun f =>
      decide (2 ≤ f.offset) && decide (f.offset + f.width ≤ 4 * L.sizeUnits)) &&
    pairwiseDisjoint L.fields

/-- Modelled from the spec: a market-by-order layout of the missing Record
Layout Catalog (spec section 4.1 lists the message kinds; the concrete
field tables live in the native core, so representative tables satisfying
the stated layout invariants stand in for them). -/
def mboLayout : LayoutDesc :=
  ⟨6, [⟨"order_id", 2, 8⟩, ⟨"price", 10, 8⟩, ⟨"size", 18, 4⟩, ⟨"flags", 22, 1⟩]⟩

/-- Modelled from the spec: a trade layout of the missing Record Layout
Catalog. -/
def tradeLayout : LayoutDesc :=
  ⟨5, [⟨"price", 2, 8⟩, ⟨"size", 10, 4⟩, ⟨"instrument_id", 14, 4⟩]⟩

/-- Modelled from the spec: an OHLCV bar layout of the missing Record
Layout Catalog. -/
def ohlcvLayout : LayoutDesc :=
  ⟨9, [⟨"open", 2, 8⟩, ⟨"high", 10, 8⟩, ⟨"low", 18, 8⟩, ⟨"close", 26, 8⟩]⟩

/-- Modelled from the spec: the legacy statistics layout, whose quantity
field is narrower than the current generation's (spec section 4.1 notes
per-generation semantic renames and widenings). -/
def statLayoutV1 : LayoutDesc :=
  ⟨4, [⟨"quantity", 2, 4⟩, ⟨"stat_type", 6, 2⟩]⟩

/-- Modelled from the spec: the current statistics layout. -/
def statLayout : LayoutDesc :=
  ⟨5, [⟨"quantity", 2, 8⟩, ⟨"stat_type", 10, 2⟩]⟩

/-- Modelled from the spec: the missing Record Layout Catalog as a static
`(type_tag, schema_version) -> layout` table, populated once and immutable
(spec section 4.1). -/
def catalog : List (Nat × SchemaVersion × LayoutDesc) :=
  [ (160, SchemaVersion.V1, mboLayout)
  , (160, SchemaVersion.V2, mboLayout)
  , (160, SchemaVersion.V3, mboLayout)
  , (0, SchemaVersion.V1, tradeLayout)
  , (0, SchemaVersion.V2, tradeLayout)
  , (0, SchemaVersion.V3, tradeLayout)
  , (32, SchemaVersion.V1, ohlcvLayout)
  , (32, SchemaVersion.V2, ohlcvLayout)
  , (32, SchemaVersion.V3, ohlcvLayout)
  , (24, SchemaVersion.V1, statLayoutV1)
  , (24, SchemaVersion.V2, statLayoutV1)
  , (24, SchemaVersion.V3, statLayout)
  ]

/-- Catalog lookup for a type tag under a schema version (spec section
4.1); `none` models `UnknownLayout` for the decoder's dispatch. -/
def catalogLookup (tag : Nat) (v : SchemaVersion) : Option LayoutDesc :=
  (catalog.find? (fun e => e.1 == tag && e.2.1 == v)).map (fun e => e.2.2)

/-- Decode errors of the record decoder (spec section 7). -/
inductive DecodeError where
  | TruncatedRecord
  | UnknownRecordType
deriving DecidableEq, Repr

/-- Read-only typed view over the byte range of one record: buffer offset,
byte length and the layout used to interpret the fields; the bytes
themselves stay in the borrowed buffer (spec section 4.3, step 4). -/
structure RecordView where
  start : Nat
  length : Nat
  layout : LayoutDesc
deriving DecidableEq, Repr

/-- Header length field at the cursor: the count of 4-byte units making up
the whole record (spec section 6). -/
def headerLenUnits (buf : List Nat) (cursor : Nat) : Option Nat := buf[cursor]?

/-- Header type-tag byte, directly after the length field (spec section
6). -/
def headerTypeTag (buf : List Nat) (cursor : Nat) : Option Nat := buf[cursor + 1]?

/-- Modelled from the spec: `decode(buffer, cursor, schema_version)` of the
missing native Record Decoder, following the algorithm of spec section
4.3: read the header, validate that the declared length is non-zero and
does not exceed the remaining buffer (else `TruncatedRecord`), dispatch on
the type tag through the catalog (else `UnknownRecordType`), and return a
zero-copy view plus the bytes consumed.  A buffer too short to hold the
two header bytes is itself a truncation. -/
def decode (buf : List Nat) (cursor : Nat) (v : SchemaVersion) :
    Except DecodeError (RecordView × Nat) :=
  match headerLenUnits buf cursor, headerTypeTag buf cursor with
  | some lenUnits, some tag =>
    if 4 * lenUnits = 0 ∨ buf.length - cursor < 4 * lenUnits then
      .error .TruncatedRecord
    else
      match catalogLookup tag v with
      | none => .error .UnknownRecordType
      | some L => .ok (⟨cursor, 4 * lenUnits, L⟩, 4 * lenUnits)
  | _, _ => .error .TruncatedRecord

/-- Byte indices the decoder dereferences: the header bytes it could
actually read (the view construction copies no field bytes, spec section
4.3 step 4). -/
def decodeFootprint (buf : List Nat) (cursor : Nat) : List Nat :=
  match buf[cursor]? with
  | none => []
  | some _ =>
    match buf[cursor + 1]? with
    | none => [cursor]
    | some _ => [cursor, cursor + 1]

/-- Decoder state visible across calls: the borrowed input buffer (the
decoder keeps no other mutable state, spec sections 4.3 and 7). -/
structure DecoderState where
  buffer : List Nat
deriving DecidableEq, Repr

/-- State-passing form of `decode`: the call is given the decoder state
and returns it alongside the per-record result. -/
def decodeSt (s : DecoderState) (cursor : Nat) (v : SchemaVersion) :
    Except DecodeError (RecordView × Nat) × DecoderState :=
  match decode s.buffer cursor v with
  | .ok res => (.ok res, s)
  | .error e => (.error e, s)

/-- Little-endian bytes of a value at a given byte width (spec section 6:
one fixed byte order, little-endian). -/
def natToLE : Nat → Nat → List Nat
  | 0, _ => []
  | w + 1, val => val % 256 :: natToLE w (val / 256)

/-- Little-endian value of a byte list. -/
def leToNat : List Nat → Nat
  | [] => 0
  | b :: bs => b + 256 * leToNat bs

/-- Bytes of the range `[off, off + w)` of a buffer. -/
def readBytes (buf : List Nat) (off w : Nat) : List Nat :=
  (buf.drop off).take w

/-- Buffer with the range starting at `off` replaced by the given bytes. -/
def writeBytes (buf : List Nat) (off : Nat) (xs : List Nat) : List Nat :=
  buf.take off ++ xs ++ buf.drop (off + xs.length)

/-- Field-by-field write of values into a record buffer, each at its
layout offset in little-endian order. -/
def writeFields : List Nat → List FieldDesc → List Nat → List Nat
  | buf, [], _ => buf
  | buf, _ :: _, [] => buf
  | buf, f :: fs, val :: vals =>
    writeFields (writeBytes buf f.offset (natToLE f.width val)) fs vals

/-- Modelled from the spec: the record encoder of the missing native core
(spec section 8 round-trip property): the two header bytes - length in
4-byte units and type tag (spec section 6) - followed by the layout's
fields written at their fixed offsets into a zeroed record. -/
def encodeRecord (tag : Nat) (L : LayoutDesc) (vals : List Nat) : List Nat :=
  writeFields (L.sizeUnits :: tag :: List.replicate (4 * L.sizeUnits - 2) 0)
    L.fields vals

/-- Validity of an assignment of field values for a field list: one value
per field, each fitting the field's byte width. -/
def validVals : List FieldDesc → List Nat → Bool
  | [], [] => true
  | f :: fs, val :: vals => decide (val < 256 ^ f.width) && validVals fs vals
  | _, _ => false

/-- Field accessor of a record view: the little-endian value of the
field's byte range inside the viewed record (spec section 4.3, step 4). -/
def fieldValue (buf : List Nat) (view : RecordView) (f : FieldDesc) : Nat :=
  leToNat (readBytes buf (view.start + f.offset) f.width)

/-- Values of all fields of a field list, read through a record view. -/
def fieldVals (buf : List Nat) (view : RecordView) (fs : List FieldDesc) : List Nat :=
  fs.map (fun f => fieldValue buf view f)

/-- C1 counterexample: the legacy alias name `TBBOMsg` does not resolve to
the same layout in every schema-version context: `v1.py` binds it to
`MBOMsg` while `v2.py` binds it to `MBP1Msg`. -/
theorem tbbo_alias_version_dependent :
    resolveName v1_exports "TBBOMsg" = some Layout.MBOMsg ∧
    resolveName v2_exports "TBBOMsg" = some Layout.MBP1Msg ∧
    resolveName v1_exports "TBBOMsg" ≠ resolveName v2_exports "TBBOMsg" := by
  refine ⟨by decide, by decide, by decide⟩

/-- C1 (amended): every legacy alias name other than `TBBOMsg` resolves to
the identical layout under the V1 module and under the V2 module, while
`TBBOMsg` is version-dependent, denoting `MBOMsg` under V1 and `MBP1Msg`
under V2. -/
theorem alias_resolution_agreement :
    (∀ n, n ∈ aliasNames → n ≠ "TBBOMsg" →
      resolveName v1_exports n = resolveName v2_exports n) ∧
    resolveName v1_exports "TBBOMsg" = some Layout.MBOMsg ∧
    resolveName v2_exports "TBBOMsg" = some Layout.MBP1Msg := by
  refine ⟨?_, by decide, by decide⟩
  intro n hn hne
  simp only [aliasNames, List.mem_cons, List.not_mem_nil, or_false] at hn
  rcases hn with rfl | rfl | rfl | rfl | rfl | rfl
  · exact absurd rfl hne
  · decide
  · decide
  · decide
  · decide
  · decide

/-- Witness for the amended C1 at the concrete alias name `BBO1SMsg`. -/
theorem alias_resolution_agreement_witness :
    "BBO1SMsg" ∈ aliasNames ∧ "BBO1SMsg" ≠ "TBBOMsg" ∧
    resolveName v1_exports "BBO1SMsg" = resolveName v2_exports "BBO1SMsg" :=
  ⟨by decide, by decide,
    alias_resolution_agreement.1 "BBO1SMsg" (by decide) (by decide)⟩

/-- C8: the V2 module binds the canonical name `StatMsg` to the legacy
layout `StatMsgV1`, while the V1 module binds `StatMsg` to the current
`StatMsg` layout; the two bindings differ, so the binding is not monotone
in the module version. -/
theorem statmsg_binding_not_monotone :
    resolveName v2_exports "StatMsg" = some Layout.StatMsgV1 ∧
    resolveName v1_exports "StatMsg" = some Layout.StatMsg ∧
    Layout.StatMsgV1 ≠ Layout.StatMsg := by
  refine ⟨by decide, by decide, by decide⟩

/-- C9: in both version modules the subsample-interval alias pairs share a
single layout: `BBO1SMsg` and `BBO1MMsg` both denote `BBOMsg`, and
`CBBO1SMsg` and `CBBO1MMsg` both denote `CBBOMsg`. -/
theorem subsample_aliases_shared_layout :
    resolveName v1_exports "BBO1SMsg" = some Layout.BBOMsg ∧
    resolveName v1_exports "BBO1MMsg" = some Layout.BBOMsg ∧
    resolveName v1_exports "CBBO1SMsg" = some Layout.CBBOMsg ∧
    resolveName v1_exports "CBBO1MMsg" = some Layout.CBBOMsg ∧
    resolveName v2_exports "BBO1SMsg" = some Layout.BBOMsg ∧
    resolveName v2_exports "BBO1MMsg" = some Layout.BBOMsg ∧
    resolveName v2_exports "CBBO1SMsg" = some Layout.CBBOMsg ∧
    resolveName v2_exports "CBBO1MMsg" = some Layout.CBBOMsg := by
  refine ⟨by decide, by decide, by decide, by decide,
    by decide, by decide, by decide, by decide⟩

/-- C10: the V1 and V2 modules expose exactly the same public names: the
fifteen message bindings followed by the six alias bindings, twenty-one
distinct names in all. -/
theorem export_name_sets_equal :
    exportNames v1_exports = exportNames v2_exports ∧
    exportNames v1_exports = messageNames ++ aliasNames ∧
    messageNames.length = 15 ∧ aliasNames.length = 6 ∧
    (exportNames v1_exports).Nodup := by
  refine ⟨by decide, by decide, by decide, by decide, by decide⟩

/-- Intervals covering a common date overlap each other. -/
theorem covers_both_overlaps (a b : MappingInterval) (d : Nat)
    (ha : covers a d = true) (hb : covers b d = true) : overlaps a b = true := by
  simp only [covers, overlaps, Bool.and_eq_true, decide_eq_true_eq] at *
  omega

/-- Search over a well-formed interval sequence finds the symbol of any
covering interval, and reports no symbol when no interval covers the
date. -/
theorem lookupIntervals_spec (ivs : List MappingInterval) (d : Nat)
    (hwf : wellFormedIntervals ivs = true) :
    (∀ iv, iv ∈ ivs → covers iv d = true → lookupIntervals ivs d = some iv.symbol) ∧
    ((∀ iv, iv ∈ ivs → covers iv d = false) → lookupIntervals ivs d = none) := by
  induction ivs with
  | nil => exact ⟨fun iv hiv => absurd hiv (List.not_mem_nil iv), fun _ => rfl⟩
  | cons a ivs ih =>
    simp only [wellFormedIntervals, Bool.and_eq_true, List.all_eq_true] at hwf
    obtain ⟨h1, h2⟩ := hwf
    refine ⟨?_, ?_⟩
    · intro iv hiv hc
      rcases List.mem_cons.mp hiv with rfl | htail
      · simp [lookupIntervals, hc]
      · cases hca : covers a d with
        | true =>
          have hov := covers_both_overlaps a iv d hca hc
          have := (h1 iv htail).2
          rw [hov] at this
          exact absurd this (by decide)
        | false =>
          simpa [lookupIntervals, hca] using (ih h2).1 iv htail hc
    · intro hall
      have hca : covers a d = false := hall a (List.mem_cons_self a ivs)
      simpa [lookupIntervals, hca] using
        (ih h2).2 (fun iv hiv => hall iv (List.mem_cons_of_mem a hiv))

/-- C2: over a raw symbol's sorted, pairwise non-overlapping interval
sequence, `lookup` returns the symbol of the interval satisfying
`start_date <= as_of_date < end_date`, and `NotMapped` (`none`) when no
interval covers the date. -/
theorem lookup_unique_covering (r : Resolver) (raw : String) (d : Nat)
    (m : SymbolMapping) (hm : findMapping r raw = some m)
    (hwf : wellFormedIntervals m.intervals = true) :
    (∀ iv, iv ∈ m.intervals → covers iv d = true → lookup r raw d = some iv.symbol) ∧
    ((∀ iv, iv ∈ m.intervals → covers iv d = false) → lookup r raw d = none) := by
  have hspec := lookupIntervals_spec m.intervals d hwf
  constructor
  · intro iv hiv hc
    simpa [lookup, hm] using hspec.1 iv hiv hc
  · intro hall
    simpa [lookup, hm] using hspec.2 hall

/-- Witness for C2 at the spec's concrete example: inserting
`[2023-01-01, 2023-02-01) -> A` then `[2023-02-01, 2023-03-01) -> B` for
raw symbol `X`, lookups at 2023-01-15, 2023-02-01 and 2023-03-15 give
`A`, `B` and `NotMapped`. -/
theorem lookup_unique_covering_witness :
    insertS [] "X" ⟨20230101, 20230201, "A"⟩ =
      ([⟨"X", [⟨20230101, 20230201, "A"⟩]⟩], none) ∧
    insertS [⟨"X", [⟨20230101, 20230201, "A"⟩]⟩] "X" ⟨20230201, 20230301, "B"⟩ =
      ([⟨"X", [⟨20230101, 20230201, "A"⟩, ⟨20230201, 20230301, "B"⟩]⟩], none) ∧
    lookup [⟨"X", [⟨20230101, 20230201, "A"⟩, ⟨20230201, 20230301, "B"⟩]⟩]
      "X" 20230115 = some "A" ∧
    lookup [⟨"X", [⟨20230101, 20230201, "A"⟩, ⟨20230201, 20230301, "B"⟩]⟩]
      "X" 20230201 = some "B" ∧
    lookup [⟨"X", [⟨20230101, 20230201, "A"⟩, ⟨20230201, 20230301, "B"⟩]⟩]
      "X" 20230315 = none :=
  ⟨by decide, by decide,
    (lookup_unique_covering
      [⟨"X", [⟨20230101, 20230201, "A"⟩, ⟨20230201, 20230301, "B"⟩]⟩]
      "X" 20230115 ⟨"X", [⟨20230101, 20230201, "A"⟩, ⟨20230201, 20230301, "B"⟩]⟩
      (by decide) (by decide)).1 ⟨20230101, 20230201, "A"⟩ (by decide) (by decide),
    (lookup_unique_covering
      [⟨"X", [⟨20230101, 20230201, "A"⟩, ⟨20230201, 20230301, "B"⟩]⟩]
      "X" 20230201 ⟨"X", [⟨20230101, 20230201, "A"⟩, ⟨20230201, 20230301, "B"⟩]⟩
      (by decide) (by decide)).1 ⟨20230201, 20230301, "B"⟩ (by decide) (by decide),
    (lookup_unique_covering
      [⟨"X", [⟨20230101, 20230201, "A"⟩, ⟨20230201, 20230301, "B"⟩]⟩]
      "X" 20230315 ⟨"X", [⟨20230101, 20230201, "A"⟩, ⟨20230201, 20230301, "B"⟩]⟩
      (by decide) (by decide)).2 (by decide)⟩

/-- C3: inserting an interval that overlaps an existing interval for the
same raw symbol fails with `OverlappingInterval` and leaves the resolver
state exactly as it was. -/
theorem insert_overlapping_rejected (r : Resolver) (raw : String)
    (iv : MappingInterval) (m : SymbolMapping)
    (hm : findMapping r raw = some m)
    (hov : m.intervals.any (fun o => overlaps o iv) = true) :
    insertS r raw iv = (r, some InsertError.OverlappingInterval) := by
  simp [insertS, insert, insertIntervals, hm, hov, Except.map]

/-- Witness for C3: with `[10, 20) -> A` present for `X`, inserting the
overlapping `[15, 25) -> B` is rejected and the state is unchanged. -/
theorem insert_overlapping_rejected_witness :
    findMapping [⟨"X", [⟨10, 20, "A"⟩]⟩] "X" = some ⟨"X", [⟨10, 20, "A"⟩]⟩ ∧
    (SymbolMapping.mk "X" [⟨10, 20, "A"⟩]).intervals.any
      (fun o => overlaps o ⟨15, 25, "B"⟩) = true ∧
    insertS [⟨"X", [⟨10, 20, "A"⟩]⟩] "X" ⟨15, 25, "B"⟩ =
      ([⟨"X", [⟨10, 20, "A"⟩]⟩], some InsertError.OverlappingInterval) :=
  ⟨by decide, by decide,
    insert_overlapping_rejected [⟨"X", [⟨10, 20, "A"⟩]⟩] "X" ⟨15, 25, "B"⟩
      ⟨"X", [⟨10, 20, "A"⟩]⟩ (by decide) (by decide)⟩

/-- C6 counterexample: an interval that starts before the most recently
inserted interval for its symbol but also overlaps it is rejected as
`OverlappingInterval`, not `OutOfOrder`: the overlap check of the
insertion contract comes first. -/
theorem insert_out_of_order_claim_counterexample :
    (MappingInterval.mk 5 15 "B").start_date <
      (MappingInterval.mk 10 20 "A").start_date ∧
    (SymbolMapping.mk "X" [⟨10, 20, "A"⟩]).intervals.getLast? =
      some ⟨10, 20, "A"⟩ ∧
    insertS [⟨"X", [⟨10, 20, "A"⟩]⟩] "X" ⟨5, 15, "B"⟩ =
      ([⟨"X", [⟨10, 20, "A"⟩]⟩], some InsertError.OverlappingInterval) ∧
    insertS [⟨"X", [⟨10, 20, "A"⟩]⟩] "X" ⟨5, 15, "B"⟩ ≠
      ([⟨"X", [⟨10, 20, "A"⟩]⟩], some InsertError.OutOfOrder) := by
  refine ⟨by decide, by decide, by decide, by decide⟩

/-- C6 (amended): an interval starting before the most recently inserted
interval for its symbol, and not overlapping any existing interval for
that symbol, is rejected as `OutOfOrder` with the state unchanged; and
every successful insertion for a symbol is in non-decreasing `start_date`
order. -/
theorem insert_out_of_order_rejected (r : Resolver) (raw : String)
    (iv : MappingInterval) (m : SymbolMapping) (lastIv : MappingInterval)
    (hm : findMapping r raw = some m)
    (hlast : m.intervals.getLast? = some lastIv)
    (hnov : m.intervals.all (fun o => !overlaps o iv) = true) :
    (iv.start_date < lastIv.start_date →
      insertS r raw iv = (r, some InsertError.OutOfOrder)) ∧
    (∀ r2, insert r raw iv = Except.ok r2 →
      lastIv.start_date ≤ iv.start_date) := by
  have hany : m.intervals.any (fun o => overlaps o iv) = false := by
    simp only [List.all_eq_true, Bool.not_eq_true'] at hnov
    cases hq : m.intervals.any (fun o => overlaps o iv) with
    | false => rfl
    | true =>
      obtain ⟨o, ho, hov2⟩ := List.any_eq_true.mp hq
      rw [hnov o ho] at hov2
      exact absurd hov2 (by decide)
  constructor
  · intro hlt
    simp [insertS, insert, insertIntervals, hm, hany, hlast, hlt, Except.map]
  · intro r2 hok
    by_contra hcon
    push_neg at hcon
    simp [insert, insertIntervals, hm, hany, hlast, hcon, Except.map] at hok

/-- Witness for the amended C6: with `[10, 20) -> A` present for `X`,
inserting the non-overlapping but earlier-starting `[3, 4) -> B` is
rejected as `OutOfOrder` with the state unchanged. -/
theorem insert_out_of_order_rejected_witness :
    findMapping [⟨"X", [⟨10, 20, "A"⟩]⟩] "X" = some ⟨"X", [⟨10, 20, "A"⟩]⟩ ∧
    (SymbolMapping.mk "X" [⟨10, 20, "A"⟩]).intervals.getLast? =
      some ⟨10, 20, "A"⟩ ∧
    (MappingInterval.mk 3 4 "B").start_date <
      (MappingInterval.mk 10 20 "A").start_date ∧
    insertS [⟨"X", [⟨10, 20, "A"⟩]⟩] "X" ⟨3, 4, "B"⟩ =
      ([⟨"X", [⟨10, 20, "A"⟩]⟩], some InsertError.OutOfOrder) :=
  ⟨by decide, by decide, by decide,
    (insert_out_of_order_rejected [⟨"X", [⟨10, 20, "A"⟩]⟩] "X" ⟨3, 4, "B"⟩
      ⟨"X", [⟨10, 20, "A"⟩]⟩ ⟨10, 20, "A"⟩
      (by decide) (by decide) (by decide)).1 (by decide)⟩

/-- C4: a declared record length of zero, or one exceeding the bytes
remaining past the cursor, makes `decode` fail with `TruncatedRecord`;
every byte index the decoder dereferences is inside the buffer; and a
successful view's byte range lies inside the buffer. -/
theorem decode_truncation_safe (buf : List Nat) (cursor : Nat) (v : SchemaVersion) :
    (∀ lenUnits, headerLenUnits buf cursor = some lenUnits →
      4 * lenUnits = 0 ∨ buf.length - cursor < 4 * lenUnits →
      decode buf cursor v = .error DecodeError.TruncatedRecord) ∧
    (∀ i, i ∈ decodeFootprint buf cursor → i < buf.length) ∧
    (∀ view consumed, decode buf cursor v = .ok (view, consumed) →
      view.start = cursor ∧ view.start + view.length ≤ buf.length) := by
  refine ⟨?_, ?_, ?_⟩
  · intro lenUnits hl hbad
    cases ht : headerTypeTag buf cursor with
    | none => simp [decode, hl, ht]
    | some tag =>
      simp only [decode, hl, ht]
      rw [if_pos hbad]
  · intro i hi
    cases h0 : buf[cursor]? with
    | none => simp [decodeFootprint, h0] at hi
    | some a =>
      cases h1 : buf[cursor + 1]? with
      | none =>
        simp [decodeFootprint, h0, h1] at hi
        subst hi
        exact (List.getElem?_eq_some.mp h0).1
      | some b =>
        simp [decodeFootprint, h0, h1] at hi
        rcases hi with rfl | rfl
        · exact (List.getElem?_eq_some.mp h0).1
        · exact (List.getElem?_eq_some.mp h1).1
  · intro view consumed hok
    cases h0 : headerLenUnits buf cursor with
    | none => simp [decode, h0] at hok
    | some lenUnits =>
      cases h1 : headerTypeTag buf cursor with
      | none => simp [decode, h0, h1] at hok
      | some tag =>
        by_cases hbad : 4 * lenUnits = 0 ∨ buf.length - cursor < 4 * lenUnits
        · simp only [decode, h0, h1] at hok
          rw [if_pos hbad] at hok
          exact absurd hok (by simp)
        · cases hc : catalogLookup tag v with
          | none =>
            simp only [decode, h0, h1] at hok
            rw [if_neg hbad] at hok
            simp [hc] at hok
          | some L =>
            simp only [decode, h0, h1] at hok
            rw [if_neg hbad] at hok
            simp only [hc, Except.ok.injEq, Prod.mk.injEq] at hok
            obtain ⟨hv, hcons⟩ := hok
            have h0e : buf[cursor]? = some lenUnits := h0
            have hcur : cursor < buf.length := (List.getElem?_eq_some.mp h0e).1
            push_neg at hbad
            obtain ⟨hnz, hrem⟩ := hbad
            subst hv
            refine ⟨rfl, ?_⟩
            simp only
            omega

/-- Witness for C4: a two-byte buffer whose header declares a 3-unit
(12-byte) record is rejected as truncated. -/
theorem decode_truncation_safe_witness :
    headerLenUnits [3, 160] 0 = some 3 ∧
    (4 * 3 = 0 ∨ ([3, 160] : List Nat).length - 0 < 4 * 3) ∧
    decode [3, 160] 0 SchemaVersion.V1 = .error DecodeError.TruncatedRecord :=
  ⟨rfl, by decide,
    (decode_truncation_safe [3, 160] 0 SchemaVersion.V1).1 3 rfl (by decide)⟩

/-- C7: the state-passing decoder returns its state, and in particular its
buffer, unchanged on every outcome, and its per-record result is the pure
function of the buffer, cursor and schema version. -/
theorem decode_no_state_mutation (s : DecoderState) (cursor : Nat) (v : SchemaVersion) :
    (decodeSt s cursor v).2 = s ∧
    (decodeSt s cursor v).2.buffer = s.buffer ∧
    (decodeSt s cursor v).1 = decode s.buffer cursor v := by
  unfold decodeSt
  cases decode s.buffer cursor v with
  | ok res => exact ⟨rfl, rfl, rfl⟩
  | error e => exact ⟨rfl, rfl, rfl⟩

/-- Little-endian encoding at width `w` produces exactly `w` bytes. -/
theorem natToLE_length (w v : Nat) : (natToLE w v).length = w := by
  induction w generalizing v with
  | zero => rfl
  | succ w ih => simp [natToLE, ih]

/-- Decoding the little-endian bytes of a value fitting the width recovers
the value. -/
theorem leToNat_natToLE (w v : Nat) (h : v < 256 ^ w) :
    leToNat (natToLE w v) = v := by
  induction w generalizing v with
  | zero =>
    simp only [natToLE, leToNat]
    have h1 : v < 1 := by simpa using h
    omega
  | succ w ih =>
    have h2 : v < 256 * 256 ^ w := by
      rw [pow_succ] at h
      omega
    have hdiv : v / 256 < 256 ^ w := Nat.div_lt_of_lt_mul h2
    simp only [natToLE, leToNat, ih (v / 256) hdiv]
    omega

/-- Writing a range that fits inside the buffer preserves its length. -/
theorem writeBytes_length (buf xs : List Nat) (off : Nat)
    (h : off + xs.length ≤ buf.length) :
    (writeBytes buf off xs).length = buf.length := by
  simp only [writeBytes, List.length_append, List.length_take, List.length_drop]
  omega

/-- Bytes before the written range are unchanged. -/
theorem writeBytes_getElem?_lt (buf xs : List Nat) (off i : Nat)
    (hoff : off ≤ buf.length) (h : i < off) :
    (writeBytes buf off xs)[i]? = buf[i]? := by
  have hlt : i < (buf.take off).length := by
    simp only [List.length_take]
    omega
  have hlt2 : i < (buf.take off ++ xs).length := by
    simp only [List.length_append]
    omega
  rw [writeBytes, List.getElem?_append_left hlt2, List.getElem?_append_left hlt,
    List.getElem?_take_of_lt h]

/-- Bytes inside the written range are the written bytes. -/
theorem writeBytes_getElem?_mid (buf xs : List Nat) (off i : Nat)
    (hoff : off ≤ buf.length) (h1 : off ≤ i) (h2 : i < off + xs.length) :
    (writeBytes buf off xs)[i]? = xs[i - off]? := by
  have hlen : (buf.take off).length = off := by
    simp only [List.length_take]
    omega
  have hlt2 : i < (buf.take off ++ xs).length := by
    simp only [List.length_append]
    omega
  rw [writeBytes, List.getElem?_append_left hlt2,
    List.getElem?_append_right (by rw [hlen]; omega), hlen]

/-- Bytes after the written range are unchanged. -/
theorem writeBytes_getElem?_ge (buf xs : List Nat) (off i : Nat)
    (hb : off + xs.length ≤ buf.length) (h : off + xs.length ≤ i) :
    (writeBytes buf off xs)[i]? = buf[i]? := by
  have hlen : (buf.take off ++ xs).length = off + xs.length := by
    simp only [List.length_append, List.length_take]
    omega
  rw [writeBytes, List.getElem?_append_right (by rw [hlen]; omega), hlen,
    List.getElem?_drop]
  congr 1
  omega

/-- Length of a range read. -/
theorem readBytes_length (buf : List Nat) (off w : Nat) :
    (readBytes buf off w).length = min w (buf.length - off) := by
  simp [readBytes]

/-- Bytes of a range read, positionally. -/
theorem readBytes_getElem?_lt (buf : List Nat) (off w j : Nat) (h : j < w) :
    (readBytes buf off w)[j]? = buf[off + j]? := by
  rw [readBytes, List.getElem?_take_of_lt h, List.getElem?_drop]

/-- Reading back a range just written yields the written bytes. -/
theorem readBytes_writeBytes_self (buf xs : List Nat) (off : Nat)
    (hb : off + xs.length ≤ buf.length) :
    readBytes (writeBytes buf off xs) off xs.length = xs := by
  apply List.ext_getElem?
  intro j
  by_cases hj : j < xs.length
  · rw [readBytes_getElem?_lt _ _ _ _ hj,
      writeBytes_getElem?_mid buf xs off (off + j) (by omega) (by omega) (by omega)]
    congr 1
    omega
  · have hlen1 : (readBytes (writeBytes buf off xs) off xs.length).length = xs.length := by
      rw [readBytes_length, writeBytes_length buf xs off hb]
      omega
    rw [List.getElem?_eq_none (by rw [hlen1]; omega),
      List.getElem?_eq_none (by omega)]

/-- A write leaves every disjoint range unchanged. -/
theorem readBytes_writeBytes_disjoint (buf xs : List Nat) (off o2 w2 : Nat)
    (hb : off + xs.length ≤ buf.length)
    (hd : o2 + w2 ≤ off ∨ off + xs.length ≤ o2) :
    readBytes (writeBytes buf off xs) o2 w2 = readBytes buf o2 w2 := by
  apply List.ext_getElem?
  intro j
  by_cases hj : j < w2
  · rw [readBytes_getElem?_lt _ _ _ _ hj, readBytes_getElem?_lt _ _ _ _ hj]
    rcases hd with hd | hd
    · exact writeBytes_getElem?_lt buf xs off (o2 + j) (by omega) (by omega)
    · exact writeBytes_getElem?_ge buf xs off (o2 + j) hb (by omega)
  · have hL1 : (readBytes (writeBytes buf off xs) o2 w2).length ≤ j := by
      rw [readBytes_length, writeBytes_length buf xs off hb]
      omega
    have hL2 : (readBytes buf o2 w2).length ≤ j := by
      rw [readBytes_length]
      omega
    rw [List.getElem?_eq_none hL1, List.getElem?_eq_none hL2]

/-- Writing a field list that fits inside the buffer preserves its
length. -/
theorem writeFields_length (fs : List FieldDesc) (vals buf : List Nat)
    (hb : ∀ f, f ∈ fs → f.offset + f.width ≤ buf.length) :
    (writeFields buf fs vals).length = buf.length := by
  induction fs generalizing buf vals with
  | nil => simp [writeFields]
  | cons f fs ih =>
    cases vals with
    | nil => simp [writeFields]
    | cons val vals =>
      have hf := hb f (List.mem_cons_self f fs)
      have hxs : (natToLE f.width val).length = f.width := natToLE_length _ _
      have hwb : (writeBytes buf f.offset (natToLE f.width val)).length = buf.length :=
        writeBytes_length _ _ _ (by rw [hxs]; omega)
      simp only [writeFields]
      rw [ih vals (writeBytes buf f.offset (natToLE f.width val))
        (fun g hg => by rw [hwb]; exact hb g (List.mem_cons_of_mem f hg)), hwb]

/-- A byte outside every field of a written field list is unchanged. -/
theorem writeFields_getElem?_untouched (fs : List FieldDesc) (vals buf : List Nat)
    (i : Nat) (hb : ∀ f, f ∈ fs → f.offset + f.width ≤ buf.length)
    (hi : ∀ f, f ∈ fs → i < f.offset ∨ f.offset + f.width ≤ i) :
    (writeFields buf fs vals)[i]? = buf[i]? := by
  induction fs generalizing buf vals with
  | nil => simp [writeFields]
  | cons f fs ih =>
    cases vals with
    | nil => simp [writeFields]
    | cons val vals =>
      have hf := hb f (List.mem_cons_self f fs)
      have hfi := hi f (List.mem_cons_self f fs)
      have hxs : (natToLE f.width val).length = f.width := natToLE_length _ _
      have hwb : (writeBytes buf f.offset (natToLE f.width val)).length = buf.length :=
        writeBytes_length _ _ _ (by rw [hxs]; omega)
      simp only [writeFields]
      rw [ih vals (writeBytes buf f.offset (natToLE f.width val))
        (fun g hg => by rw [hwb]; exact hb g (List.mem_cons_of_mem f hg))
        (fun g hg => hi g (List.mem_cons_of_mem f hg))]
      rcases hfi with hfi | hfi
      · exact writeBytes_getElem?_lt buf _ f.offset i (by omega) hfi
      · exact writeBytes_getElem?_ge buf _ f.offset i (by rw [hxs]; omega)
          (by rw [hxs]; omega)

/-- Writing a field list leaves every range disjoint from all its fields
unchanged. -/
theorem readBytes_writeFields_disjoint (fs : List FieldDesc) (vals buf : List Nat)
    (o2 w2 : Nat) (hb : ∀ f, f ∈ fs → f.offset + f.width ≤ buf.length)
    (hd : ∀ f, f ∈ fs → o2 + w2 ≤ f.offset ∨ f.offset + f.width ≤ o2) :
    readBytes (writeFields buf fs vals) o2 w2 = readBytes buf o2 w2 := by
  induction fs generalizing buf vals with
  | nil => simp [writeFields]
  | cons f fs ih =>
    cases vals with
    | nil => simp [writeFields]
    | cons val vals =>
      have hf := hb f (List.mem_cons_self f fs)
      have hfd := hd f (List.mem_cons_self f fs)
      have hxs : (natToLE f.width val).length = f.width := natToLE_length _ _
      have hwb : (writeBytes buf f.offset (natToLE f.width val)).length = buf.length :=
        writeBytes_length _ _ _ (by rw [hxs]; omega)
      simp only [writeFields]
      rw [ih vals (writeBytes buf f.offset (natToLE f.width val))
        (fun g hg => by rw [hwb]; exact hb g (List.mem_cons_of_mem f hg))
        (fun g hg => hd g (List.mem_cons_of_mem f hg))]
      exact readBytes_writeBytes_disjoint buf _ f.offset o2 w2
        (by rw [hxs]; omega) (by rw [hxs]; omega)

/-- Reading every field of a pairwise-disjoint field list back out of the
buffer produced by writing a valid value assignment recovers the
assignment. -/
theorem fieldVals_writeFields (fs : List FieldDesc) (vals buf : List Nat)
    (hb : ∀ f, f ∈ fs → f.offset + f.width ≤ buf.length)
    (hdisj : pairwiseDisjoint fs = true)
    (hvals : validVals fs vals = true) :
    fs.map (fun f => leToNat (readBytes (writeFields buf fs vals) f.offset f.width)) =
      vals := by
  induction fs generalizing buf vals with
  | nil =>
    cases vals with
    | nil => rfl
    | cons val vals => simp [validVals] at hvals
  | cons f fs ih =>
    cases vals with
    | nil => simp [validVals] at hvals
    | cons val vals =>
      simp only [validVals, Bool.and_eq_true, decide_eq_true_eq] at hvals
      obtain ⟨hvlt, hvtail⟩ := hvals
      simp only [pairwiseDisjoint, Bool.and_eq_true, List.all_eq_true] at hdisj
      obtain ⟨hdf, hdtail⟩ := hdisj
      have hf := hb f (List.mem_cons_self f fs)
      have hxs : (natToLE f.width val).length = f.width := natToLE_length _ _
      have hwb : (writeBytes buf f.offset (natToLE f.width val)).length = buf.length :=
        writeBytes_length _ _ _ (by rw [hxs]; omega)
      simp only [writeFields, List.map_cons]
      have hhead : leToNat (readBytes
          (writeFields (writeBytes buf f.offset (natToLE f.width val)) fs vals)
          f.offset f.width) = val := by
        rw [readBytes_writeFields_disjoint fs vals
          (writeBytes buf f.offset (natToLE f.width val)) f.offset f.width
          (fun g hg => by rw [hwb]; exact hb g (List.mem_cons_of_mem f hg))
          (fun g hg => by
            have := hdf g hg
            simp only [disjointFields, Bool.or_eq_true, decide_eq_true_eq] at this
            exact this)]
        have hself : readBytes (writeBytes buf f.offset (natToLE f.width val))
            f.offset (natToLE f.width val).length = natToLE f.width val :=
          readBytes_writeBytes_self buf _ f.offset (by rw [hxs]; omega)
        rw [hxs] at hself
        rw [hself]
        exact leToNat_natToLE f.width val hvlt
      have htail : fs.map (fun g => leToNat (readBytes
          (writeFields (writeBytes buf f.offset (natToLE f.width val)) fs vals)
          g.offset g.width)) = vals :=
        ih vals (writeBytes buf f.offset (natToLE f.width val))
          (fun g hg => by rw [hwb]; exact hb g (List.mem_cons_of_mem f hg))
          hdtail hvtail
      rw [hhead, htail]

/-- Every layout stored in the catalog table is well formed. -/
theorem catalog_entries_wf : catalog.all (fun e => layoutWF e.2.2) = true := by
  decide

/-- Every layout the catalog lookup can return is well formed. -/
theorem catalogLookup_wf (tag : Nat) (v : SchemaVersion) (L : LayoutDesc)
    (h : catalogLookup tag v = some L) : layoutWF L = true := by
  unfold catalogLookup at h
  cases hf : catalog.find? (fun e => e.1 == tag && e.2.1 == v) with
  | none => rw [hf] at h; simp at h
  | some e =>
    rw [hf] at h
    simp only [Option.map_some', Option.some.injEq] at h
    have he := List.mem_of_find?_eq_some hf
    rw [← h]
    exact List.all_eq_true.mp catalog_entries_wf e he

/-- C5: for every layout in the catalog and every value assignment valid
for it, encoding a record from the values and decoding the bytes back
yields a successful view over the whole record and identical values for
every field of the layout. -/
theorem encode_decode_roundtrip (tag : Nat) (v : SchemaVersion) (L : LayoutDesc)
    (hL : catalogLookup tag v = some L)
    (vals : List Nat) (hvals : validVals L.fields vals = true) :
    decode (encodeRecord tag L vals) 0 v =
      Except.ok (⟨0, 4 * L.sizeUnits, L⟩, 4 * L.sizeUnits) ∧
    fieldVals (encodeRecord tag L vals) ⟨0, 4 * L.sizeUnits, L⟩ L.fields = vals := by
  have hwf := catalogLookup_wf tag v L hL
  simp only [layoutWF, Bool.and_eq_true, List.all_eq_true, decide_eq_true_eq] at hwf
  obtain ⟨⟨⟨hsz, hszlt⟩, hfields⟩, hdisj⟩ := hwf
  have hB0len : (L.sizeUnits :: tag :: List.replicate (4 * L.sizeUnits - 2) 0).length =
      4 * L.sizeUnits := by
    simp only [List.length_cons, List.length_replicate]
    omega
  have hbounds : ∀ f, f ∈ L.fields →
      f.offset + f.width ≤
        (L.sizeUnits :: tag :: List.replicate (4 * L.sizeUnits - 2) 0).length := by
    intro f hf
    rw [hB0len]
    exact (hfields f hf).2
  have henclen : (encodeRecord tag L vals).length = 4 * L.sizeUnits := by
    rw [encodeRecord, writeFields_length L.fields vals _ hbounds, hB0len]
  have h0 : (encodeRecord tag L vals)[0]? = some L.sizeUnits := by
    rw [encodeRecord, writeFields_getElem?_untouched L.fields vals _ 0 hbounds
      (fun f hf => Or.inl (by have := (hfields f hf).1; omega))]
    rfl
  have h1 : (encodeRecord tag L vals)[1]? = some tag := by
    rw [encodeRecord, writeFields_getElem?_untouched L.fields vals _ 1 hbounds
      (fun f hf => Or.inl (by have := (hfields f hf).1; omega))]
    simp
  constructor
  · have hlu : headerLenUnits (encodeRecord tag L vals) 0 = some L.sizeUnits := h0
    have htg : headerTypeTag (encodeRecord tag L vals) 0 = some tag := h1
    simp only [decode, hlu, htg]
    rw [if_neg (by simp only [henclen]; omega)]
    simp [hL]
  · have hmap := fieldVals_writeFields L.fields vals _ hbounds hdisj hvals
    simp only [fieldVals, fieldValue, encodeRecord, Nat.zero_add]
    exact hmap

/-- Witness for C5 at the catalog's current statistics layout with a
concrete value assignment. -/
theorem encode_decode_roundtrip_witness :
    catalogLookup 24 SchemaVersion.V3 = some statLayout ∧
    validVals statLayout.fields [123456789, 42] = true ∧
    decode (encodeRecord 24 statLayout [123456789, 42]) 0 SchemaVersion.V3 =
      Except.ok (⟨0, 4 * statLayout.sizeUnits, statLayout⟩, 4 * statLayout.sizeUnits) ∧
    fieldVals (encodeRecord 24 statLayout [123456789, 42])
      ⟨0, 4 * statLayout.sizeUnits, statLayout⟩ statLayout.fields = [123456789, 42] :=
  ⟨by decide, by decide,
    (encode_decode_roundtrip 24 SchemaVersion.V3 statLayout (by decide)
      [123456789, 42] (by decide)).1,
    (encode_decode_roundtrip 24 SchemaVersion.V3 statLayout (by decide)
      [123456789, 42] (by decide)).2⟩

end Dbn
